import Mathlib

/-!
Shallow embedding of the poliastro fragments under verification:
`poliastro/bodies.py`, `poliastro/czml/extract_czml.py`, and the
propagation interface exercised by `tests_twobody/test_perturbations.py`.

Numeric values carried by astropy `Quantity` objects are modelled as exact
rationals (ℚ); the real-valued two-body vector field is modelled over ℝ.
Python exceptions are modelled with `Except` / explicit result types.
-/

namespace Poliastro

/-- Python exception classes that the embedded code can raise. -/
inductive PyError
  | typeError
  | valueError
  deriving DecidableEq, Repr

/-! ## bodies.py -/

/-- The gravitational constant `astropy.constants.G` (SI value 6.6743e-11),
as an exact rational.  Only its nonzero-ness matters for the theorems. -/
def G : ℚ := 66743 / 10 ^ 15

/-- `Body`: namedtuple with `__slots__ = ()` — an immutable record.  The
`parent` back-reference is identity-only (never used for dynamics), so it is
modelled as an optional name.  `rotational_period` is stored in days, as in
the source defaults (`0.0 * u.day`). -/
structure Body where
  parent : Option String
  k : ℚ
  name : String
  symbol : Option String
  R : ℚ
  R_polar : ℚ
  R_mean : ℚ
  rotational_period : ℚ
  J2 : ℚ
  J3 : ℚ
  mass : ℚ
  deriving DecidableEq, Repr

/-- `Body.__new__`: when `mass is None` the stored mass is computed as
`k / G`; otherwise the supplied mass is stored.  The `_q` wrapper in the
source converts `Constant` to `Quantity` without changing the value, so it
is the identity here. -/
def bodyNew (parent : Option String) (k : ℚ) (name : String) (symbol : Option String)
    (R : ℚ) (R_polar : ℚ) (R_mean : ℚ) (rotational_period : ℚ)
    (J2 : ℚ) (J3 : ℚ) (mass : Option ℚ) : Body :=
  { parent := parent
    k := k
    name := name
    symbol := symbol
    R := R
    R_polar := R_polar
    R_mean := R_mean
    rotational_period := rotational_period
    J2 := J2
    J3 := J3
    mass := mass.getD (k / G) }

/-- A numpy floating-point result: finite value, signed infinity, or NaN.
Finite angular-velocity values are recorded as the coefficient of π
(the source value is `2·π rad / T_s`, held here as `2 / T_s` in units of
π·rad/s), keeping the embedding exact and decidable. -/
inductive NpVal
  | fin : ℚ → NpVal
  | posInf
  | negInf
  | nan
  deriving DecidableEq, Repr

/-- numpy scalar division under the default error state: division by zero
emits a `RuntimeWarning` and returns ±inf (or NaN for 0/0); it never raises. -/
def npDiv (a b : ℚ) : NpVal :=
  if b = 0 then
    if 0 < a then NpVal.posInf else if a < 0 then NpVal.negInf else NpVal.nan
  else NpVal.fin (a / b)

/-- Result type of the `angular_velocity` property: either a returned numpy
value or a raised division error.  The source performs
`(2 * math.pi * u.rad) / self.rotational_period.to(u.s)` on astropy
`Quantity` values (numpy scalars), which cannot raise a `ZeroDivisionError`;
hence the definition below always takes the `val` branch. -/
inductive AngVelResult
  | val : NpVal → AngVelResult
  | divideByZeroError
  deriving DecidableEq, Repr

/-- `Body.angular_velocity`: `(2π rad) / rotational_period.to(u.s)`.
`.to(u.s)` converts the stored day value by the exact factor 86400.  The
finite result is the coefficient of π, i.e. `2 / T_s`. -/
def angular_velocity (b : Body) : AngVelResult :=
  AngVelResult.val (npDiv 2 (b.rotational_period * 86400))

/-- `Body.from_relative`: evaluates `k * reference.k` first and then
`R * reference.R`; in Python a `None` factor makes the multiplication raise
`TypeError` before `cls(...)` runs, so the embedding short-circuits in the
same order.  The constructed body passes the remaining parameters at their
`__new__` defaults (mass `None`, hence `k / G`). -/
def from_relative (reference : Body) (parent : Option String) (kf : Option ℚ)
    (name : String) (symbol : Option String) (Rf : Option ℚ) : Except PyError Body :=
  match kf with
  | none => Except.error PyError.typeError
  | some kfac =>
    match Rf with
    | none => Except.error PyError.typeError
    | some Rfac =>
      Except.ok (bodyNew parent (kfac * reference.k) name symbol
        (Rfac * reference.R) 0 0 0 0 0 none)

theorem G_ne_zero : G ≠ 0 := by norm_num [G]

/-! ## czml/extract_czml.py -/

/-- `CZMLExtractor.add_orbit` epoch handling (times as exact rationals):
an orbit whose epoch precedes `start_epoch` is replaced by
`orbit.propagate(start_epoch - orbit.epoch)`, whose epoch is `start_epoch`;
an orbit whose epoch exceeds `end_epoch` raises `ValueError`; otherwise the
orbit is kept as-is.  The returned rational is the epoch of the orbit that
is appended to `self.orbits`. -/
def add_orbit_epoch (start_epoch end_epoch epoch : ℚ) : Except PyError ℚ :=
  if epoch < start_epoch then Except.ok start_epoch
  else if end_epoch < epoch then Except.error PyError.valueError
  else Except.ok epoch

/-- `_init_orbit_packet_cords_` sample times: `h = (end_epoch - epoch)/N`
seconds, one sample per `k in range(N + 2)` at offset `k * h`. -/
def sample_times (N : ℕ) (span : ℚ) : List ℚ :=
  (List.range (N + 2)).map (fun (k : ℕ) => (k : ℚ) * (span / N))

/-- `_init_orbit_packet_cords_`: for each `k in range(N + 2)` the orbit is
propagated by `k * h`, the position is converted from km to meters
(`.to(u.meter)`, exact factor 1000) and the time offset `k * h` is prepended.
`prop` is the (abstract) propagated position in km at a given time offset in
seconds; the resulting list is the `(t, x, y, z)` sample list flattened into
the packet's `cartesian` property. -/
def orbit_cartesian_samples (prop : ℚ → ℚ × ℚ × ℚ) (N : ℕ) (span : ℚ) :
    List (ℚ × ℚ × ℚ × ℚ) :=
  (List.range (N + 2)).map (fun (k : ℕ) =>
    let t : ℚ := (k : ℚ) * (span / N)
    let p := prop t
    (t, 1000 * p.1, 1000 * p.2.1, 1000 * p.2.2))

/-- A Python value as far as `add_ground_station` inspects it: an astropy
`Quantity` (carrying a rational magnitude) or anything else. -/
inductive PyVal
  | quantity : ℚ → PyVal
  | rawFloat : ℚ → PyVal
  | str : String → PyVal
  deriving DecidableEq, Repr

/-- `isinstance(x, u.quantity.Quantity)`. -/
def isQuantity : PyVal → Bool
  | PyVal.quantity _ => true
  | _ => false

/-- The extractor state touched by `add_ground_station`: the ground-station
packets already written into `self.czml` (keyed `"GS" + str(i)`) and the
counter `self.gs_n`. -/
structure ExtractorState where
  gs_packets : List (String × List ℚ)
  gs_n : ℕ
  deriving DecidableEq, Repr

/-- `CZMLExtractor.add_ground_station`: the guard is
`len(pos) == 2 and isinstance(pos[0], Quantity) and isinstance(pos[0], Quantity)`
— the source tests `pos[0]` twice and never inspects `pos[1]`.  On failure it
raises `TypeError` before any packet is built or `gs_n` incremented; on
success it converts the coordinates with `ellipsoidal_to_cartesian` (code
outside the verified sources, abstracted as the argument `e2c`), writes the
packet, and increments `gs_n`. -/
def add_ground_station (e2c : PyVal → PyVal → List ℚ) (st : ExtractorState)
    (pos : List PyVal) : Except PyError ExtractorState :=
  match pos with
  | [p0, p1] =>
    if isQuantity p0 && isQuantity p0 then
      Except.ok
        { gs_packets := st.gs_packets ++ [("GS" ++ toString st.gs_n, e2c p0 p1)]
          gs_n := st.gs_n + 1 }
    else Except.error PyError.typeError
  | _ => Except.error PyError.typeError

/-! ## Propagation core (modelled from the spec)

The propagator (`poliastro.twobody.propagation.cowell`) and the closed-form
Kepler path are not among the verified source files; only their callers and
tests are.  The definitions below are therefore modelled from the spec
(§4.4, §4.5): the 6-dimensional vector field `[v, −k·r/|r|³ + Σ ad]`
advanced by an explicit Runge–Kutta-family integrator, and the analytic
two-body path as mean-anomaly advance on classical elements. -/

/-- A 3-vector of real components. -/
abbrev Vec3 : Type := ℝ × ℝ × ℝ

/-- Componentwise vector addition. -/
def vadd (a b : Vec3) : Vec3 := (a.1 + b.1, a.2.1 + b.2.1, a.2.2 + b.2.2)

/-- Scalar multiple of a 3-vector. -/
def vsmul (c : ℝ) (a : Vec3) : Vec3 := (c * a.1, c * a.2.1, c * a.2.2)

/-- The zero 3-vector. -/
def vzero : Vec3 := (0, 0, 0)

/-- The 6-dimensional integration state `[r, v]`. -/
abbrev State6 : Type := Vec3 × Vec3

/-- Componentwise addition on 6-states. -/
def sadd (a b : State6) : State6 := (vadd a.1 b.1, vadd a.2 b.2)

/-- Scalar multiple of a 6-state. -/
def ssmul (c : ℝ) (a : State6) : State6 := (vsmul c a.1, vsmul c a.2)

/-- The zero 6-state. -/
def szero : State6 := (vzero, vzero)

/-- Euclidean norm of a 3-vector. -/
noncomputable def norm3 (r : Vec3) : ℝ :=
  Real.sqrt (r.1 ^ 2 + r.2.1 ^ 2 + r.2.2 ^ 2)

/-- Modelled from the spec: the central two-body gravitational acceleration
`−k·r/|r|³` (§4.5). -/
noncomputable def twoBodyAccel (k : ℝ) (r : Vec3) : Vec3 :=
  vsmul (-(k / norm3 r ^ 3)) r

/-- Modelled from the spec: the unperturbed two-body vector field
`[v, −k·r/|r|³]` (§4.5, the `cowell` field with no `ad`). -/
noncomputable def twoBodyField (k : ℝ) : ℝ → State6 → State6 :=
  fun _ s => (s.2, twoBodyAccel k s.1)

/-- Modelled from the spec: the perturbed vector field
`[v, −k·r/|r|³ + ad(t, state)]` — the perturbing acceleration is summed
into the two-body acceleration at every evaluation (§4.4, §4.5). -/
noncomputable def pertField (k : ℝ) (ad : ℝ → State6 → Vec3) : ℝ → State6 → State6 :=
  fun t s => (s.2, vadd (twoBodyAccel k s.1) (ad t s))

/-- Butcher tableau of an explicit Runge–Kutta method: nodes `c`, stage
coefficient rows `A`, and quadrature weights `b`.  The DOP835 integrator
used by `cowell` is one member of this family. -/
structure ButcherTableau where
  c : List ℝ
  A : List (List ℝ)
  b : List ℝ

/-- Weighted sum `Σ wᵢ·kᵢ` of stage values. -/
def weightedSum (ws : List ℝ) (ks : List State6) : State6 :=
  (List.zip ws ks).foldl (fun acc wk => sadd acc (ssmul wk.1 wk.2)) szero

/-- Stage values of an explicit RK step, built left to right:
`kᵢ = f(t + cᵢ·h, y + h·Σⱼ aᵢⱼ·kⱼ)` over the stages already computed. -/
def rkStages (f : ℝ → State6 → State6) (t h : ℝ) (y : State6) :
    List ℝ → List (List ℝ) → List State6 → List State6
  | [], _, acc => acc
  | ci :: cs, rows, acc =>
    let ki := f (t + ci * h) (sadd y (ssmul h (weightedSum (rows.headD []) acc)))
    rkStages f t h y cs rows.tail (acc ++ [ki])

/-- One explicit RK step: `y + h·Σ bᵢ·kᵢ`. -/
def rkStep (tab : ButcherTableau) (f : ℝ → State6 → State6) (h t : ℝ) (y : State6) :
    State6 :=
  sadd y (ssmul h (weightedSum tab.b (rkStages f t h y tab.c tab.A [])))

/-- `n` explicit RK steps of size `h` from `(t0, y)`: the numerical
propagation path of §4.5 with the given vector field. -/
def rkPropagate (tab : ButcherTableau) (f : ℝ → State6 → State6) (h : ℝ) :
    ℕ → ℝ → State6 → State6
  | 0, _, y => y
  | n + 1, t0, y => rkPropagate tab f h n (t0 + h) (rkStep tab f h t0 y)

/-- Classical orbital elements (§3, `OrbitState`); the mean anomaly `M` is
measured in revolutions, so the physical state depends on `M` only through
its fractional part. -/
structure ClassicalEls where
  a : ℚ
  ecc : ℚ
  inc : ℚ
  raan : ℚ
  argp : ℚ
  M : ℚ
  deriving DecidableEq, Repr

/-- Modelled from the spec: the closed-form analytic two-body path (§4.5)
advances the mean anomaly at the constant rate of one revolution per
orbital period `T`, leaving the remaining elements fixed. -/
def keplerPropagate (T t : ℚ) (s : ClassicalEls) : ClassicalEls :=
  { s with M := s.M + t / T }

/-- The physically observable elements: the mean anomaly reduced modulo one
revolution. -/
def observeEls (s : ClassicalEls) : ClassicalEls :=
  { s with M := Int.fract s.M }

/-! ## State/element conversion (modelled from the spec)

`rv_to_classical` and `classical_to_rv` (§4.3, §6) are not among the
verified source files either; only their callers are.  They are modelled
from the spec over exact reals: the canonical Cartesian ↔ classical-element
map (angular-momentum, node and eccentricity vectors; angles recovered by
`arccos` with the standard quadrant branches), including §4.3's degenerate
conventions (circular orbits: argument of perigee set to zero; equatorial
orbits: RAAN set to zero). -/

/-- Real dot product on ℝ³ triples. -/
def dot3 (a b : Vec3) : ℝ := a.1 * b.1 + a.2.1 * b.2.1 + a.2.2 * b.2.2

/-- Cross product on ℝ³ triples. -/
def cross3 (a b : Vec3) : Vec3 :=
  (a.2.1 * b.2.2 - a.2.2 * b.2.1,
   a.2.2 * b.1 - a.1 * b.2.2,
   a.1 * b.2.1 - a.2.1 * b.1)

/-- Modelled from the spec: the specific angular-momentum vector
`h = r × v` of a Cartesian state. -/
def hVec (r v : Vec3) : Vec3 := cross3 r v

/-- Modelled from the spec: the node vector `n = ẑ × h`, pointing to the
ascending node. -/
def nodeVec (r v : Vec3) : Vec3 :=
  (-((hVec r v).2.1), (hVec r v).1, 0)

/-- Modelled from the spec: the eccentricity vector
`e = ((|v|² − k/|r|)·r − (r·v)·v)/k`. -/
noncomputable def eccVec (r v : Vec3) (k : ℝ) : Vec3 :=
  vsmul (1 / k)
    (vadd (vsmul (dot3 v v - k / norm3 r) r) (vsmul (-(dot3 r v)) v))

/-- Classical orbital elements over ℝ: semi-major axis, eccentricity,
inclination, RAAN, argument of perigee, true anomaly (§3, §4.3). -/
structure OrbitalElements where
  a : ℝ
  ecc : ℝ
  inc : ℝ
  raan : ℝ
  argp : ℝ
  nu : ℝ

/-- Modelled from the spec: `rv_to_classical(r, v, k) -> elements` (§6,
§4.3) — the canonical extraction: `p = |h|²/k`, `a = p/(1−e²)`,
`i = arccos(h_z/|h|)`, `Ω` from the node vector with the quadrant branch on
`n_y`, `ω` from node and eccentricity vectors with the branch on `e_z`,
`ν` from eccentricity and position with the branch on `r·v`; §4.3's
conventions at the degenerate boundaries: RAAN set to 0 for equatorial
orbits (`n = 0`), argument of perigee set to 0 for circular orbits
(`e = 0`). -/
noncomputable def rv_to_classical (r v : Vec3) (k : ℝ) : OrbitalElements :=
  { a := norm3 (hVec r v) ^ 2 / k / (1 - norm3 (eccVec r v k) ^ 2)
    ecc := norm3 (eccVec r v k)
    inc := Real.arccos ((hVec r v).2.2 / norm3 (hVec r v))
    raan := if norm3 (nodeVec r v) = 0 then 0
      else if 0 ≤ (nodeVec r v).2.1 then
        Real.arccos ((nodeVec r v).1 / norm3 (nodeVec r v))
      else 2 * Real.pi - Real.arccos ((nodeVec r v).1 / norm3 (nodeVec r v))
    argp := if norm3 (eccVec r v k) = 0 then 0
      else if 0 ≤ (eccVec r v k).2.2 then
        Real.arccos (dot3 (nodeVec r v) (eccVec r v k) /
          (norm3 (nodeVec r v) * norm3 (eccVec r v k)))
      else 2 * Real.pi - Real.arccos (dot3 (nodeVec r v) (eccVec r v k) /
          (norm3 (nodeVec r v) * norm3 (eccVec r v k)))
    nu := if 0 ≤ dot3 r v then
        Real.arccos (dot3 (eccVec r v k) r /
          (norm3 (eccVec r v k) * norm3 r))
      else 2 * Real.pi - Real.arccos (dot3 (eccVec r v k) r /
          (norm3 (eccVec r v k) * norm3 r)) }

/-- Modelled from the spec: `classical_to_rv(elements, k) -> (r, v)` (§6,
§4.3) — the canonical reconstruction: perifocal state
`r_pf = p/(1+e·cos ν)·(cos ν, sin ν, 0)`,
`v_pf = √(k/p)·(−sin ν, e+cos ν, 0)`, rotated into the inertial frame by
`R₃(−Ω) R₁(−i) R₃(−ω)`. -/
noncomputable def classical_to_rv (els : OrbitalElements) (k : ℝ) :
    Vec3 × Vec3 :=
  let p := els.a * (1 - els.ecc ^ 2)
  let cO := Real.cos els.raan
  let sO := Real.sin els.raan
  let ci := Real.cos els.inc
  let si := Real.sin els.inc
  let cw := Real.cos els.argp
  let sw := Real.sin els.argp
  let cnu := Real.cos els.nu
  let snu := Real.sin els.nu
  let Pv : Vec3 := (cO * cw - sO * sw * ci, sO * cw + cO * sw * ci, sw * si)
  let Qv : Vec3 :=
    (-(cO * sw) - sO * cw * ci, -(sO * sw) + cO * cw * ci, cw * si)
  let rmag := p / (1 + els.ecc * cnu)
  (vadd (vsmul (rmag * cnu) Pv) (vsmul (rmag * snu) Qv),
   vadd (vsmul (-(Real.sqrt (k / p)) * snu) Pv)
     (vsmul (Real.sqrt (k / p) * (els.ecc + cnu)) Qv))

/-! ## Theorems -/

/-! ### Vector-algebra and angle-recovery lemmas -/

theorem sq_norm3 (a : Vec3) : norm3 a ^ 2 = a.1 ^ 2 + a.2.1 ^ 2 + a.2.2 ^ 2 :=
  Real.sq_sqrt (by positivity)

theorem norm3_pos (a : Vec3) (ha : a ≠ vzero) : 0 < norm3 a := by
  rcases lt_or_eq_of_le (Real.sqrt_nonneg (a.1 ^ 2 + a.2.1 ^ 2 + a.2.2 ^ 2))
    with h | h
  · exact h
  · exfalso
    apply ha
    have h0 : a.1 ^ 2 + a.2.1 ^ 2 + a.2.2 ^ 2 = 0 := by
      have := Real.sqrt_eq_zero (by positivity) (x := a.1 ^ 2 + a.2.1 ^ 2 + a.2.2 ^ 2)
      rw [← this]
      exact h.symm
    have h1 : a.1 = 0 := by nlinarith [sq_nonneg a.1, sq_nonneg a.2.1, sq_nonneg a.2.2]
    have h2 : a.2.1 = 0 := by nlinarith [sq_nonneg a.1, sq_nonneg a.2.1, sq_nonneg a.2.2]
    have h3 : a.2.2 = 0 := by nlinarith [sq_nonneg a.1, sq_nonneg a.2.1, sq_nonneg a.2.2]
    obtain ⟨x, y, z⟩ := a
    simp only at h1 h2 h3
    simp [vzero, h1, h2, h3]

theorem dot3_cross_self_left (a b : Vec3) : dot3 a (cross3 a b) = 0 := by
  obtain ⟨a1, a2, a3⟩ := a
  obtain ⟨b1, b2, b3⟩ := b
  simp only [dot3, cross3]
  ring

theorem dot3_cross_self_right (a b : Vec3) : dot3 b (cross3 a b) = 0 := by
  obtain ⟨a1, a2, a3⟩ := a
  obtain ⟨b1, b2, b3⟩ := b
  simp only [dot3, cross3]
  ring

theorem lagrange_identity (a b : Vec3) :
    dot3 (cross3 a b) (cross3 a b) = dot3 a a * dot3 b b - dot3 a b ^ 2 := by
  obtain ⟨a1, a2, a3⟩ := a
  obtain ⟨b1, b2, b3⟩ := b
  simp only [dot3, cross3]
  ring

theorem dot3_comb (u a b : Vec3) (c1 c2 : ℝ) :
    dot3 u (vadd (vsmul c1 a) (vsmul c2 b)) = c1 * dot3 u a + c2 * dot3 u b := by
  obtain ⟨u1, u2, u3⟩ := u
  obtain ⟨a1, a2, a3⟩ := a
  obtain ⟨b1, b2, b3⟩ := b
  simp only [dot3, vadd, vsmul]
  ring

theorem dot3_comb_left (u a b : Vec3) (c1 c2 : ℝ) :
    dot3 (vadd (vsmul c1 a) (vsmul c2 b)) u =
      c1 * dot3 a u + c2 * dot3 b u := by
  obtain ⟨u1, u2, u3⟩ := u
  obtain ⟨a1, a2, a3⟩ := a
  obtain ⟨b1, b2, b3⟩ := b
  simp only [dot3, vadd, vsmul]
  ring

theorem dot3_symm (a b : Vec3) : dot3 a b = dot3 b a := by
  obtain ⟨a1, a2, a3⟩ := a
  obtain ⟨b1, b2, b3⟩ := b
  simp only [dot3]
  ring

theorem cross3_bac_cab (a b c : Vec3) :
    cross3 a (cross3 b c) =
      vadd (vsmul (dot3 a c) b) (vsmul (-(dot3 a b)) c) := by
  obtain ⟨a1, a2, a3⟩ := a
  obtain ⟨b1, b2, b3⟩ := b
  obtain ⟨c1, c2, c3⟩ := c
  simp only [cross3, vadd, vsmul, dot3, Prod.mk.injEq]
  refine ⟨by ring, by ring, by ring⟩

theorem triple_cyclic (a b c : Vec3) :
    dot3 c (cross3 a b) = dot3 b (cross3 c a) := by
  obtain ⟨a1, a2, a3⟩ := a
  obtain ⟨b1, b2, b3⟩ := b
  obtain ⟨c1, c2, c3⟩ := c
  simp only [dot3, cross3]
  ring

/-- Decomposition of a vector orthogonal to `w` on the (generally
non-normalized) pair `u`, `w × u`, for `u` also orthogonal to `w`. -/
theorem perp_decomp (u w x : Vec3) (huw : dot3 u w = 0) (hxw : dot3 x w = 0) :
    vsmul (dot3 u u * dot3 w w) x =
      vadd (vsmul (dot3 w w * dot3 x u) u)
        (vsmul (dot3 x (cross3 w u)) (cross3 w u)) := by
  obtain ⟨u1, u2, u3⟩ := u
  obtain ⟨w1, w2, w3⟩ := w
  obtain ⟨x1, x2, x3⟩ := x
  simp only [dot3, cross3, vsmul, vadd, Prod.mk.injEq] at huw hxw ⊢
  refine ⟨?_, ?_, ?_⟩
  · linear_combination
      ((u1 * w1 + u2 * w2 + u3 * w3) * x1 - (x1 * w1 + x2 * w2 + x3 * w3) * u1
        - (u1 * x1 + u2 * x2 + u3 * x3) * w1) * huw
      + ((u1 ^ 2 + u2 ^ 2 + u3 ^ 2) * w1) * hxw
  · linear_combination
      ((u1 * w1 + u2 * w2 + u3 * w3) * x2 - (x1 * w1 + x2 * w2 + x3 * w3) * u2
        - (u1 * x1 + u2 * x2 + u3 * x3) * w2) * huw
      + ((u1 ^ 2 + u2 ^ 2 + u3 ^ 2) * w2) * hxw
  · linear_combination
      ((u1 * w1 + u2 * w2 + u3 * w3) * x3 - (x1 * w1 + x2 * w2 + x3 * w3) * u3
        - (u1 * x1 + u2 * x2 + u3 * x3) * w3) * huw
      + ((u1 ^ 2 + u2 ^ 2 + u3 ^ 2) * w3) * hxw

/-- Norm identity behind the argument-of-perigee quadrant recovery: for any
`z`, `w`, `u`, the squares of the projections of `u` on `z × w` and on `z`
relate to `|z × w|²·|u|²` through `u·w` terms only. -/
theorem node_frame_identity (z w u : Vec3) :
    dot3 (cross3 z w) (cross3 z w) * dot3 u u - dot3 (cross3 z w) u ^ 2
        - dot3 z u ^ 2 * dot3 w w =
      dot3 z z * dot3 w u ^ 2 - 2 * dot3 z u * dot3 w u * dot3 w z := by
  obtain ⟨z1, z2, z3⟩ := z
  obtain ⟨w1, w2, w3⟩ := w
  obtain ⟨u1, u2, u3⟩ := u
  simp only [dot3, cross3]
  ring

theorem dot3_self (a : Vec3) : dot3 a a = a.1 ^ 2 + a.2.1 ^ 2 + a.2.2 ^ 2 := by
  simp only [dot3]
  ring

theorem norm3_sq_dot (a : Vec3) : norm3 a ^ 2 = dot3 a a := by
  rw [sq_norm3, dot3_self]

theorem dot3_smul_right (a b : Vec3) (c : ℝ) :
    dot3 a (vsmul c b) = c * dot3 a b := by
  obtain ⟨a1, a2, a3⟩ := a
  obtain ⟨b1, b2, b3⟩ := b
  simp only [dot3, vsmul]
  ring

theorem dot3_smul_left (a b : Vec3) (c : ℝ) :
    dot3 (vsmul c a) b = c * dot3 a b := by
  obtain ⟨a1, a2, a3⟩ := a
  obtain ⟨b1, b2, b3⟩ := b
  simp only [dot3, vsmul]
  ring

/-- The eccentricity vector lies in the orbital plane: `e⃗ · h = 0`. -/
theorem ecc_dot_h (r v : Vec3) (k : ℝ) : dot3 (eccVec r v k) (hVec r v) = 0 := by
  rw [eccVec, dot3_smul_left, dot3_comb_left, hVec,
    dot3_cross_self_left, dot3_cross_self_right]
  ring

/-- Lagrange: `|h|² = (r·r)(v·v) − (r·v)²`. -/
theorem hvec_sq (r v : Vec3) :
    norm3 (hVec r v) ^ 2 = dot3 r r * dot3 v v - dot3 r v ^ 2 := by
  rw [hVec, norm3_sq_dot, lagrange_identity]

/-- `e⃗ · r = p − |r|` in cleared form: `k (e⃗·r) = |h|² − k |r|`. -/
theorem ecc_dot_r (r v : Vec3) (k : ℝ) (hk : k ≠ 0) (hR : norm3 r ≠ 0) :
    k * dot3 (eccVec r v k) r = norm3 (hVec r v) ^ 2 - k * norm3 r := by
  rw [eccVec, dot3_smul_left, dot3_comb_left, hvec_sq]
  have hrr : dot3 r r = norm3 r ^ 2 := (norm3_sq_dot r).symm
  rw [hrr, dot3_symm v r]
  field_simp
  ring

/-- `e⃗ · v = −(r·v)/|r|` in cleared form. -/
theorem ecc_dot_v (r v : Vec3) (k : ℝ) (hk : k ≠ 0) (hR : norm3 r ≠ 0) :
    norm3 r * dot3 (eccVec r v k) v = -(dot3 r v) := by
  rw [eccVec, dot3_smul_left, dot3_comb_left, dot3_symm r v]
  field_simp
  ring

/-- The vis-viva form of the eccentricity:
`k²e²|r| = k²|r| + |h|²|r|(v·v) − 2k|h|²`. -/
theorem ecc_sq_key (r v : Vec3) (k : ℝ) (hk : k ≠ 0) (hR : norm3 r ≠ 0) :
    k ^ 2 * norm3 (eccVec r v k) ^ 2 * norm3 r =
      k ^ 2 * norm3 r + norm3 (hVec r v) ^ 2 * norm3 r * dot3 v v
        - 2 * k * norm3 (hVec r v) ^ 2 := by
  have h1 : norm3 (eccVec r v k) ^ 2 = dot3 (eccVec r v k) (eccVec r v k) :=
    norm3_sq_dot _
  have h2 : k ^ 2 * norm3 r * dot3 (eccVec r v k) (eccVec r v k) =
      (norm3 r * dot3 v v - k) * (k * dot3 (eccVec r v k) r)
        - k * dot3 r v * (norm3 r * dot3 (eccVec r v k) v) := by
    nth_rewrite 2 [show eccVec r v k = vsmul (1 / k)
      (vadd (vsmul (dot3 v v - k / norm3 r) r) (vsmul (-(dot3 r v)) v))
      from rfl]
    rw [dot3_smul_right, dot3_comb]
    field_simp
    ring
  have h3 := ecc_dot_r r v k hk hR
  have h4 := ecc_dot_v r v k hk hR
  have h5 := hvec_sq r v
  have hrr : dot3 r r = norm3 r ^ 2 := (norm3_sq_dot r).symm
  linear_combination k ^ 2 * norm3 r * h1 + h2
    + (norm3 r * dot3 v v - k) * h3 - k * dot3 r v * h4
    + k * h5 + k * dot3 v v * hrr

/-- Pythagoras for the true anomaly:
`k²(e⃗·r)² + (r·v)²|h|² = k²e²|r|²`. -/
theorem nu_sq_key (r v : Vec3) (k : ℝ) (hk : k ≠ 0) (hR : norm3 r ≠ 0) :
    k ^ 2 * dot3 (eccVec r v k) r ^ 2 + dot3 r v ^ 2 * norm3 (hVec r v) ^ 2 =
      k ^ 2 * norm3 (eccVec r v k) ^ 2 * norm3 r ^ 2 := by
  have h3 := ecc_dot_r r v k hk hR
  have h8 := ecc_sq_key r v k hk hR
  have h5 := hvec_sq r v
  have hrr : dot3 r r = norm3 r ^ 2 := (norm3_sq_dot r).symm
  linear_combination (k * dot3 (eccVec r v k) r + norm3 (hVec r v) ^ 2
      - k * norm3 r) * h3 - norm3 r * h8
    + norm3 (hVec r v) ^ 2 * h5 + norm3 (hVec r v) ^ 2 * dot3 v v * hrr

/-- `r · (h × e⃗) = (r·v)·p` in cleared form. -/
theorem m_dot_r (r v : Vec3) (k : ℝ) (hk : k ≠ 0) (hR : norm3 r ≠ 0) :
    k * dot3 r (cross3 (hVec r v) (eccVec r v k)) =
      dot3 r v * norm3 (hVec r v) ^ 2 := by
  have h1 : dot3 r (cross3 (hVec r v) (eccVec r v k)) =
      dot3 (eccVec r v k) (cross3 r (hVec r v)) :=
    triple_cyclic (hVec r v) (eccVec r v k) r
  have h2 : cross3 r (hVec r v) =
      vadd (vsmul (dot3 r v) r) (vsmul (-(dot3 r r)) v) := by
    rw [hVec]
    exact cross3_bac_cab r r v
  rw [h1, h2, dot3_comb]
  have h3 := ecc_dot_r r v k hk hR
  have h4 := ecc_dot_v r v k hk hR
  have hrr : dot3 r r = norm3 r ^ 2 := (norm3_sq_dot r).symm
  have hcancel : norm3 r * (k * (dot3 r v * dot3 (eccVec r v k) r
      + -(dot3 r r) * dot3 (eccVec r v k) v)) =
      norm3 r * (dot3 r v * norm3 (hVec r v) ^ 2) := by
    linear_combination norm3 r * dot3 r v * h3
      - k * norm3 r ^ 2 * h4 - k * dot3 (eccVec r v k) v * norm3 r * hrr
  exact mul_left_cancel₀ hR hcancel

/-- `|r|·(v · (h × e⃗)) = k(e²|r| + e⃗·r)` in cleared form. -/
theorem m_dot_v (r v : Vec3) (k : ℝ) (hk : k ≠ 0) (hR : norm3 r ≠ 0) :
    norm3 r * dot3 v (cross3 (hVec r v) (eccVec r v k)) =
      k * (norm3 (eccVec r v k) ^ 2 * norm3 r + dot3 (eccVec r v k) r) := by
  have h1 : dot3 v (cross3 (hVec r v) (eccVec r v k)) =
      dot3 (eccVec r v k) (cross3 v (hVec r v)) :=
    triple_cyclic (hVec r v) (eccVec r v k) v
  have h2 : cross3 v (hVec r v) =
      vadd (vsmul (dot3 v v) r) (vsmul (-(dot3 v r)) v) := by
    rw [hVec]
    exact cross3_bac_cab v r v
  rw [h1, h2, dot3_comb]
  have h3 := ecc_dot_r r v k hk hR
  have h4 := ecc_dot_v r v k hk hR
  have h8 := ecc_sq_key r v k hk hR
  have h5 := hvec_sq r v
  have hrr : dot3 r r = norm3 r ^ 2 := (norm3_sq_dot r).symm
  have hcancel : k * (norm3 r * (dot3 v v * dot3 (eccVec r v k) r
      + -(dot3 v r) * dot3 (eccVec r v k) v)) =
      k * (k * (norm3 (eccVec r v k) ^ 2 * norm3 r + dot3 (eccVec r v k) r)) := by
    have hvr : dot3 v r = dot3 r v := dot3_symm v r
    rw [hvr]
    linear_combination (norm3 r * dot3 v v - k) * h3 - k * dot3 r v * h4 - h8
      + k * h5 + k * dot3 v v * hrr
  exact mul_left_cancel₀ hk hcancel

theorem vsmul_vsmul (a b : ℝ) (x : Vec3) :
    vsmul a (vsmul b x) = vsmul (a * b) x := by
  obtain ⟨x1, x2, x3⟩ := x
  simp only [vsmul, Prod.mk.injEq]
  refine ⟨by ring, by ring, by ring⟩

theorem vsmul_vadd (a : ℝ) (x y : Vec3) :
    vsmul a (vadd x y) = vadd (vsmul a x) (vsmul a y) := by
  obtain ⟨x1, x2, x3⟩ := x
  obtain ⟨y1, y2, y3⟩ := y
  simp only [vsmul, vadd, Prod.mk.injEq]
  refine ⟨by ring, by ring, by ring⟩

theorem vsmul_left_cancel (c : ℝ) (hc : c ≠ 0) (x y : Vec3)
    (h : vsmul c x = vsmul c y) : x = y := by
  obtain ⟨x1, x2, x3⟩ := x
  obtain ⟨y1, y2, y3⟩ := y
  simp only [vsmul, Prod.mk.injEq] at h ⊢
  obtain ⟨h1, h2, h3⟩ := h
  exact ⟨mul_left_cancel₀ hc h1, mul_left_cancel₀ hc h2, mul_left_cancel₀ hc h3⟩

/-- Decomposition of `r` on the (e⃗, h × e⃗) pair:
`k e² r = k (e⃗·r) e⃗ + (r·v) (h × e⃗)`. -/
theorem key_r (r v : Vec3) (k : ℝ) (hk : k ≠ 0) (hR : norm3 r ≠ 0)
    (hH : norm3 (hVec r v) ≠ 0) :
    vsmul (k * norm3 (eccVec r v k) ^ 2) r =
      vadd (vsmul (k * dot3 (eccVec r v k) r) (eccVec r v k))
        (vsmul (dot3 r v) (cross3 (hVec r v) (eccVec r v k))) := by
  have hperp := perp_decomp (eccVec r v k) (hVec r v) r (ecc_dot_h r v k)
    (by rw [hVec]; exact dot3_cross_self_left r v)
  rw [← norm3_sq_dot (eccVec r v k), ← norm3_sq_dot (hVec r v),
    dot3_symm r (eccVec r v k)] at hperp
  have hmr := m_dot_r r v k hk hR
  apply vsmul_left_cancel (norm3 (hVec r v) ^ 2) (pow_ne_zero 2 hH)
  rw [vsmul_vadd, vsmul_vsmul, vsmul_vsmul, vsmul_vsmul]
  have h2 := congrArg (vsmul k) hperp
  rw [vsmul_vsmul, vsmul_vadd, vsmul_vsmul, vsmul_vsmul] at h2
  rw [show norm3 (hVec r v) ^ 2 * (k * norm3 (eccVec r v k) ^ 2) =
      k * (norm3 (eccVec r v k) ^ 2 * norm3 (hVec r v) ^ 2) from by ring,
    show norm3 (hVec r v) ^ 2 * (k * dot3 (eccVec r v k) r) =
      k * (norm3 (hVec r v) ^ 2 * dot3 (eccVec r v k) r) from by ring,
    show norm3 (hVec r v) ^ 2 * dot3 r v =
      k * dot3 r (cross3 (hVec r v) (eccVec r v k)) from by
        linear_combination -hmr]
  exact h2

/-- Decomposition of `v` on the (e⃗, h × e⃗) pair:
`|r| e² |h|² v = −(r·v)|h|² e⃗ + k(e²|r| + e⃗·r)(h × e⃗)`. -/
theorem key_v (r v : Vec3) (k : ℝ) (hk : k ≠ 0) (hR : norm3 r ≠ 0) :
    vsmul (norm3 r * (norm3 (eccVec r v k) ^ 2 * norm3 (hVec r v) ^ 2)) v =
      vadd (vsmul (-(dot3 r v) * norm3 (hVec r v) ^ 2) (eccVec r v k))
        (vsmul (k * (norm3 (eccVec r v k) ^ 2 * norm3 r
          + dot3 (eccVec r v k) r))
          (cross3 (hVec r v) (eccVec r v k))) := by
  have hperp := perp_decomp (eccVec r v k) (hVec r v) v (ecc_dot_h r v k)
    (by rw [hVec]; exact dot3_cross_self_right r v)
  rw [← norm3_sq_dot (eccVec r v k), ← norm3_sq_dot (hVec r v),
    dot3_symm v (eccVec r v k)] at hperp
  have hmv := m_dot_v r v k hk hR
  have hev := ecc_dot_v r v k hk hR
  have h2 := congrArg (vsmul (norm3 r)) hperp
  rw [vsmul_vsmul, vsmul_vadd, vsmul_vsmul, vsmul_vsmul] at h2
  rw [show -(dot3 r v) * norm3 (hVec r v) ^ 2 =
      norm3 r * (norm3 (hVec r v) ^ 2 * dot3 (eccVec r v k) v) from by
        linear_combination -(norm3 (hVec r v) ^ 2) * hev,
    show k * (norm3 (eccVec r v k) ^ 2 * norm3 r + dot3 (eccVec r v k) r) =
      norm3 r * dot3 v (cross3 (hVec r v) (eccVec r v k)) from hmv.symm]
  exact h2

/-- Recovery of a cosine/sine pair from `arccos` of the cosine when the sine
is known to be nonnegative. -/
theorem cos_sin_arccos (x y : ℝ) (hxy : x ^ 2 + y ^ 2 = 1) (hy : 0 ≤ y) :
    Real.cos (Real.arccos x) = x ∧ Real.sin (Real.arccos x) = y := by
  have hx1 : -1 ≤ x := by nlinarith [sq_nonneg y]
  have hx2 : x ≤ 1 := by nlinarith [sq_nonneg y]
  refine ⟨Real.cos_arccos hx1 hx2, ?_⟩
  rw [Real.sin_arccos, show 1 - x ^ 2 = y ^ 2 by linarith, Real.sqrt_sq hy]

/-- Recovery of a cosine/sine pair from the standard quadrant branch
`if c then arccos x else 2π − arccos x`, where the branch condition `c` has
the sign of the sine. -/
theorem cos_sin_branch {c : Prop} [Decidable c] (x y : ℝ)
    (hxy : x ^ 2 + y ^ 2 = 1) (hcy : c ↔ 0 ≤ y) :
    Real.cos (if c then Real.arccos x else 2 * Real.pi - Real.arccos x) = x ∧
    Real.sin (if c then Real.arccos x else 2 * Real.pi - Real.arccos x) = y := by
  have hx1 : -1 ≤ x := by nlinarith [sq_nonneg y]
  have hx2 : x ≤ 1 := by nlinarith [sq_nonneg y]
  by_cases hc : c
  · rw [if_pos hc]
    exact cos_sin_arccos x y hxy (hcy.1 hc)
  · have hy : y < 0 := by
      by_contra h
      exact hc (hcy.2 (le_of_not_lt h))
    rw [if_neg hc]
    constructor
    · rw [Real.cos_sub, Real.cos_two_pi, Real.sin_two_pi,
        Real.cos_arccos hx1 hx2]
      ring
    · rw [Real.sin_sub, Real.cos_two_pi, Real.sin_two_pi, Real.sin_arccos,
        show 1 - x ^ 2 = y ^ 2 by linarith, Real.sqrt_sq_eq_abs,
        abs_of_neg hy]
      ring

theorem nonneg_div_iff_of_pos (a c : ℝ) (hc : 0 < c) : 0 ≤ a / c ↔ 0 ≤ a := by
  rw [le_div_iff₀ hc]
  simp

theorem nonneg_mul_iff_of_pos (a c : ℝ) (hc : 0 < c) : 0 ≤ a * c ↔ 0 ≤ a := by
  constructor
  · intro h
    nlinarith
  · intro h
    exact mul_nonneg h hc.le

/-- Cosine and sine of the extracted inclination. -/
theorem inc_cos_sin (r v : Vec3) (k : ℝ) (hH : 0 < norm3 (hVec r v)) :
    Real.cos ((rv_to_classical r v k).inc) =
        (hVec r v).2.2 / norm3 (hVec r v) ∧
      Real.sin ((rv_to_classical r v k).inc) =
        norm3 (nodeVec r v) / norm3 (hVec r v) := by
  have hproj : (rv_to_classical r v k).inc =
      Real.arccos ((hVec r v).2.2 / norm3 (hVec r v)) := rfl
  rw [hproj]
  refine cos_sin_arccos _ _ ?_ (div_nonneg (Real.sqrt_nonneg _) hH.le)
  have h1 : norm3 (hVec r v) ^ 2 =
      (hVec r v).1 ^ 2 + (hVec r v).2.1 ^ 2 + (hVec r v).2.2 ^ 2 :=
    sq_norm3 _
  have h2 : norm3 (nodeVec r v) ^ 2 =
      (hVec r v).1 ^ 2 + (hVec r v).2.1 ^ 2 := by
    rw [sq_norm3]
    show (-((hVec r v).2.1)) ^ 2 + ((hVec r v).1) ^ 2 + (0 : ℝ) ^ 2 = _
    ring
  field_simp
  linear_combination h2 - h1

/-- Cosine and sine of the extracted RAAN. -/
theorem raan_cos_sin (r v : Vec3) (k : ℝ) (hN : 0 < norm3 (nodeVec r v)) :
    Real.cos ((rv_to_classical r v k).raan) =
        (nodeVec r v).1 / norm3 (nodeVec r v) ∧
      Real.sin ((rv_to_classical r v k).raan) =
        (nodeVec r v).2.1 / norm3 (nodeVec r v) := by
  have hproj : (rv_to_classical r v k).raan =
      if norm3 (nodeVec r v) = 0 then 0
      else if 0 ≤ (nodeVec r v).2.1 then
        Real.arccos ((nodeVec r v).1 / norm3 (nodeVec r v))
      else 2 * Real.pi -
        Real.arccos ((nodeVec r v).1 / norm3 (nodeVec r v)) := rfl
  rw [hproj, if_neg hN.ne']
  refine cos_sin_branch _ _ ?_ (nonneg_div_iff_of_pos _ _ hN).symm
  have h2 : norm3 (nodeVec r v) ^ 2 =
      (nodeVec r v).1 ^ 2 + (nodeVec r v).2.1 ^ 2 := by
    rw [sq_norm3]
    show _ + (0 : ℝ) ^ 2 = _
    ring
  field_simp
  linear_combination (-1 : ℝ) * h2

/-- Cosine and sine of the extracted argument of perigee. -/
theorem argp_cos_sin (r v : Vec3) (k : ℝ) (hH : 0 < norm3 (hVec r v))
    (hN : 0 < norm3 (nodeVec r v)) (he : 0 < norm3 (eccVec r v k)) :
    Real.cos ((rv_to_classical r v k).argp) =
        dot3 (nodeVec r v) (eccVec r v k) /
          (norm3 (nodeVec r v) * norm3 (eccVec r v k)) ∧
      Real.sin ((rv_to_classical r v k).argp) =
        (eccVec r v k).2.2 * norm3 (hVec r v) /
          (norm3 (nodeVec r v) * norm3 (eccVec r v k)) := by
  have hproj : (rv_to_classical r v k).argp =
      if norm3 (eccVec r v k) = 0 then 0
      else if 0 ≤ (eccVec r v k).2.2 then
        Real.arccos (dot3 (nodeVec r v) (eccVec r v k) /
          (norm3 (nodeVec r v) * norm3 (eccVec r v k)))
      else 2 * Real.pi - Real.arccos (dot3 (nodeVec r v) (eccVec r v k) /
          (norm3 (nodeVec r v) * norm3 (eccVec r v k))) := rfl
  rw [hproj, if_neg he.ne']
  have hiff : (0 ≤ (eccVec r v k).2.2) ↔
      0 ≤ (eccVec r v k).2.2 * norm3 (hVec r v) /
        (norm3 (nodeVec r v) * norm3 (eccVec r v k)) := by
    rw [show (eccVec r v k).2.2 * norm3 (hVec r v) /
        (norm3 (nodeVec r v) * norm3 (eccVec r v k)) =
        (eccVec r v k).2.2 * (norm3 (hVec r v) /
          (norm3 (nodeVec r v) * norm3 (eccVec r v k))) from by ring]
    exact (nonneg_mul_iff_of_pos _ _ (div_pos hH (mul_pos hN he))).symm
  refine cos_sin_branch _ _ ?_ hiff
  have hz : cross3 ((0 : ℝ), (0 : ℝ), (1 : ℝ)) (hVec r v) = nodeVec r v := by
    simp only [cross3, nodeVec, Prod.mk.injEq]
    norm_num
  have hni := node_frame_identity ((0 : ℝ), (0 : ℝ), (1 : ℝ)) (hVec r v)
    (eccVec r v k)
  rw [hz] at hni
  have hwu : dot3 (hVec r v) (eccVec r v k) = 0 := by
    rw [dot3_symm]
    exact ecc_dot_h r v k
  have hzu : dot3 ((0 : ℝ), (0 : ℝ), (1 : ℝ)) (eccVec r v k) =
      (eccVec r v k).2.2 := by
    simp [dot3]
  have hzz : dot3 ((0 : ℝ), (0 : ℝ), (1 : ℝ)) ((0 : ℝ), (0 : ℝ), (1 : ℝ)) =
      (1 : ℝ) := by
    norm_num [dot3]
  rw [hwu, hzu, hzz] at hni
  have hNd : dot3 (nodeVec r v) (nodeVec r v) = norm3 (nodeVec r v) ^ 2 :=
    (norm3_sq_dot _).symm
  have hEd : dot3 (eccVec r v k) (eccVec r v k) = norm3 (eccVec r v k) ^ 2 :=
    (norm3_sq_dot _).symm
  have hHd : dot3 (hVec r v) (hVec r v) = norm3 (hVec r v) ^ 2 :=
    (norm3_sq_dot _).symm
  rw [hNd, hEd, hHd] at hni
  field_simp
  linear_combination (-1 : ℝ) * hni

/-- Cosine and sine of the extracted true anomaly. -/
theorem nu_cos_sin (r v : Vec3) (k : ℝ) (hk : 0 < k) (hR : 0 < norm3 r)
    (hH : 0 < norm3 (hVec r v)) (he : 0 < norm3 (eccVec r v k)) :
    Real.cos ((rv_to_classical r v k).nu) =
        dot3 (eccVec r v k) r / (norm3 (eccVec r v k) * norm3 r) ∧
      Real.sin ((rv_to_classical r v k).nu) =
        dot3 r v * norm3 (hVec r v) /
          (k * (norm3 (eccVec r v k) * norm3 r)) := by
  have hproj : (rv_to_classical r v k).nu =
      if 0 ≤ dot3 r v then
        Real.arccos (dot3 (eccVec r v k) r /
          (norm3 (eccVec r v k) * norm3 r))
      else 2 * Real.pi - Real.arccos (dot3 (eccVec r v k) r /
          (norm3 (eccVec r v k) * norm3 r)) := rfl
  rw [hproj]
  have hiff : (0 ≤ dot3 r v) ↔
      0 ≤ dot3 r v * norm3 (hVec r v) /
        (k * (norm3 (eccVec r v k) * norm3 r)) := by
    rw [show dot3 r v * norm3 (hVec r v) /
        (k * (norm3 (eccVec r v k) * norm3 r)) =
        dot3 r v * (norm3 (hVec r v) /
          (k * (norm3 (eccVec r v k) * norm3 r))) from by ring]
    exact (nonneg_mul_iff_of_pos _ _
      (div_pos hH (mul_pos hk (mul_pos he hR)))).symm
  refine cos_sin_branch _ _ ?_ hiff
  have hkey := nu_sq_key r v k hk.ne' hR.ne'
  field_simp
  linear_combination
    (norm3 (eccVec r v k) ^ 2 * norm3 r ^ 2) * hkey

theorem one_minus_ecc_sq_ne (r v : Vec3) (k : ℝ)
    (he1 : norm3 (eccVec r v k) ≠ 1) :
    1 - norm3 (eccVec r v k) ^ 2 ≠ 0 := by
  intro h
  have h0 : 0 ≤ norm3 (eccVec r v k) := Real.sqrt_nonneg _
  have h2 : (norm3 (eccVec r v k) - 1) * (norm3 (eccVec r v k) + 1) = 0 := by
    linear_combination -h
  rcases mul_eq_zero.1 h2 with h3 | h3
  · exact he1 (by linarith)
  · linarith

/-- The reconstructed semi-latus rectum equals `|h|²/k`. -/
theorem p_recon (r v : Vec3) (k : ℝ)
    (he1 : norm3 (eccVec r v k) ≠ 1) :
    (rv_to_classical r v k).a * (1 - (rv_to_classical r v k).ecc ^ 2) =
      norm3 (hVec r v) ^ 2 / k := by
  show norm3 (hVec r v) ^ 2 / k / (1 - norm3 (eccVec r v k) ^ 2) *
      (1 - norm3 (eccVec r v k) ^ 2) = norm3 (hVec r v) ^ 2 / k
  exact div_mul_cancel₀ _ (one_minus_ecc_sq_ne r v k he1)

/-- `√(k/p) = k/|h|` for the reconstructed `p`. -/
theorem sqrt_k_over_p (r v : Vec3) (k : ℝ) (hk : 0 < k)
    (hH : 0 < norm3 (hVec r v)) (he1 : norm3 (eccVec r v k) ≠ 1) :
    Real.sqrt (k / ((rv_to_classical r v k).a *
        (1 - (rv_to_classical r v k).ecc ^ 2))) =
      k / norm3 (hVec r v) := by
  rw [p_recon r v k he1]
  rw [show k / (norm3 (hVec r v) ^ 2 / k) = (k / norm3 (hVec r v)) ^ 2 from by
    field_simp
    ring]
  exact Real.sqrt_sq (div_nonneg hk.le hH.le)

/-- The reconstructed radius `p/(1 + e·cos ν)` equals `|r|`. -/
theorem rmag_recon (r v : Vec3) (k : ℝ) (hk : 0 < k) (hR : 0 < norm3 r)
    (hH : 0 < norm3 (hVec r v)) (he : 0 < norm3 (eccVec r v k))
    (he1 : norm3 (eccVec r v k) ≠ 1) :
    (rv_to_classical r v k).a * (1 - (rv_to_classical r v k).ecc ^ 2) /
        (1 + (rv_to_classical r v k).ecc *
          Real.cos ((rv_to_classical r v k).nu)) =
      norm3 r := by
  rw [p_recon r v k he1, (nu_cos_sin r v k hk hR hH he).1,
    show (rv_to_classical r v k).ecc = norm3 (eccVec r v k) from rfl]
  have hEr := ecc_dot_r r v k hk.ne' hR.ne'
  have hsum : 1 + norm3 (eccVec r v k) * (dot3 (eccVec r v k) r /
      (norm3 (eccVec r v k) * norm3 r)) =
      norm3 (hVec r v) ^ 2 / (k * norm3 r) := by
    field_simp
    linear_combination (norm3 (eccVec r v k) * norm3 r) * hEr
  rw [hsum]
  field_simp
  ring

/-- Projection identities for the node vector and the `h × e⃗` vector. -/
theorem node_dot_ecc (r v : Vec3) (k : ℝ) :
    dot3 (nodeVec r v) (eccVec r v k) =
      -((hVec r v).2.1) * (eccVec r v k).1 +
        (hVec r v).1 * (eccVec r v k).2.1 := by
  simp only [dot3, nodeVec]
  ring

theorem ecc_dot_h_comps (r v : Vec3) (k : ℝ) :
    (eccVec r v k).1 * (hVec r v).1 + (eccVec r v k).2.1 * (hVec r v).2.1 +
      (eccVec r v k).2.2 * (hVec r v).2.2 = 0 := by
  have h := ecc_dot_h r v k
  simp only [dot3] at h
  exact h

theorem node_sq_comps (r v : Vec3) :
    norm3 (nodeVec r v) ^ 2 = (hVec r v).1 ^ 2 + (hVec r v).2.1 ^ 2 := by
  rw [sq_norm3]
  show (-((hVec r v).2.1)) ^ 2 + ((hVec r v).1) ^ 2 + (0 : ℝ) ^ 2 = _
  ring

/-- First component of the rotated perifocal x-axis: `P̂ = e⃗/e`. -/
theorem Pvec_comp1 (r v : Vec3) (k : ℝ) (hH : 0 < norm3 (hVec r v))
    (hN : 0 < norm3 (nodeVec r v)) (he : 0 < norm3 (eccVec r v k)) :
    (nodeVec r v).1 / norm3 (nodeVec r v) *
        (dot3 (nodeVec r v) (eccVec r v k) /
          (norm3 (nodeVec r v) * norm3 (eccVec r v k))) -
      (nodeVec r v).2.1 / norm3 (nodeVec r v) *
        ((eccVec r v k).2.2 * norm3 (hVec r v) /
          (norm3 (nodeVec r v) * norm3 (eccVec r v k))) *
        ((hVec r v).2.2 / norm3 (hVec r v)) =
      (eccVec r v k).1 / norm3 (eccVec r v k) := by
  have hEh := ecc_dot_h_comps r v k
  have hN2 := node_sq_comps r v
  have hkey : -((hVec r v).2.1) *
        (-((hVec r v).2.1) * (eccVec r v k).1 +
          (hVec r v).1 * (eccVec r v k).2.1) -
        (hVec r v).1 * (hVec r v).2.2 * (eccVec r v k).2.2 =
      norm3 (nodeVec r v) ^ 2 * (eccVec r v k).1 := by
    linear_combination (-(hVec r v).1) * hEh - (eccVec r v k).1 * hN2
  rw [node_dot_ecc,
    show (nodeVec r v).1 = -((hVec r v).2.1) from rfl,
    show (nodeVec r v).2.1 = (hVec r v).1 from rfl]
  field_simp
  linear_combination norm3 (hVec r v) * norm3 (nodeVec r v) ^ 2
    * norm3 (eccVec r v k) ^ 2 * hkey

/-- Second component of the rotated perifocal x-axis. -/
theorem Pvec_comp2 (r v : Vec3) (k : ℝ) (hH : 0 < norm3 (hVec r v))
    (hN : 0 < norm3 (nodeVec r v)) (he : 0 < norm3 (eccVec r v k)) :
    (nodeVec r v).2.1 / norm3 (nodeVec r v) *
        (dot3 (nodeVec r v) (eccVec r v k) /
          (norm3 (nodeVec r v) * norm3 (eccVec r v k))) +
      (nodeVec r v).1 / norm3 (nodeVec r v) *
        ((eccVec r v k).2.2 * norm3 (hVec r v) /
          (norm3 (nodeVec r v) * norm3 (eccVec r v k))) *
        ((hVec r v).2.2 / norm3 (hVec r v)) =
      (eccVec r v k).2.1 / norm3 (eccVec r v k) := by
  have hEh := ecc_dot_h_comps r v k
  have hN2 := node_sq_comps r v
  have hkey : (hVec r v).1 *
        (-((hVec r v).2.1) * (eccVec r v k).1 +
          (hVec r v).1 * (eccVec r v k).2.1) -
        (hVec r v).2.1 * (hVec r v).2.2 * (eccVec r v k).2.2 =
      norm3 (nodeVec r v) ^ 2 * (eccVec r v k).2.1 := by
    linear_combination (-(hVec r v).2.1) * hEh - (eccVec r v k).2.1 * hN2
  rw [node_dot_ecc,
    show (nodeVec r v).1 = -((hVec r v).2.1) from rfl,
    show (nodeVec r v).2.1 = (hVec r v).1 from rfl]
  field_simp
  linear_combination norm3 (hVec r v) * norm3 (nodeVec r v) ^ 2
    * norm3 (eccVec r v k) ^ 2 * hkey

/-- Third component of the rotated perifocal x-axis. -/
theorem Pvec_comp3 (r v : Vec3) (k : ℝ) (hH : 0 < norm3 (hVec r v))
    (hN : 0 < norm3 (nodeVec r v)) (he : 0 < norm3 (eccVec r v k)) :
    (eccVec r v k).2.2 * norm3 (hVec r v) /
        (norm3 (nodeVec r v) * norm3 (eccVec r v k)) *
        (norm3 (nodeVec r v) / norm3 (hVec r v)) =
      (eccVec r v k).2.2 / norm3 (eccVec r v k) := by
  field_simp
  ring

/-- First component of the rotated perifocal y-axis:
`Q̂ = (h × e⃗)/(|h| e)`. -/
theorem Qvec_comp1 (r v : Vec3) (k : ℝ) (hH : 0 < norm3 (hVec r v))
    (hN : 0 < norm3 (nodeVec r v)) (he : 0 < norm3 (eccVec r v k)) :
    -((nodeVec r v).1 / norm3 (nodeVec r v) *
        ((eccVec r v k).2.2 * norm3 (hVec r v) /
          (norm3 (nodeVec r v) * norm3 (eccVec r v k)))) -
      (nodeVec r v).2.1 / norm3 (nodeVec r v) *
        (dot3 (nodeVec r v) (eccVec r v k) /
          (norm3 (nodeVec r v) * norm3 (eccVec r v k))) *
        ((hVec r v).2.2 / norm3 (hVec r v)) =
      (cross3 (hVec r v) (eccVec r v k)).1 /
        (norm3 (hVec r v) * norm3 (eccVec r v k)) := by
  have hEh := ecc_dot_h_comps r v k
  have hN2 := node_sq_comps r v
  have hH2 : norm3 (hVec r v) ^ 2 =
      (hVec r v).1 ^ 2 + (hVec r v).2.1 ^ 2 + (hVec r v).2.2 ^ 2 :=
    sq_norm3 _
  have hkey : (hVec r v).2.1 * (eccVec r v k).2.2 * norm3 (hVec r v) ^ 2 -
        (hVec r v).1 * (hVec r v).2.2 *
          (-((hVec r v).2.1) * (eccVec r v k).1 +
            (hVec r v).1 * (eccVec r v k).2.1) =
      norm3 (nodeVec r v) ^ 2 *
        ((hVec r v).2.1 * (eccVec r v k).2.2 -
          (hVec r v).2.2 * (eccVec r v k).2.1) := by
    linear_combination (hVec r v).2.1 * (hVec r v).2.2 * hEh
      + ((hVec r v).2.2 * (eccVec r v k).2.1
        - (hVec r v).2.1 * (eccVec r v k).2.2) * hN2
      + (hVec r v).2.1 * (eccVec r v k).2.2 * hH2
  have hm1 : (cross3 (hVec r v) (eccVec r v k)).1 =
      (hVec r v).2.1 * (eccVec r v k).2.2 -
        (hVec r v).2.2 * (eccVec r v k).2.1 := rfl
  rw [node_dot_ecc, hm1,
    show (nodeVec r v).1 = -((hVec r v).2.1) from rfl,
    show (nodeVec r v).2.1 = (hVec r v).1 from rfl]
  field_simp
  linear_combination norm3 (hVec r v) * norm3 (nodeVec r v) ^ 2
    * norm3 (eccVec r v k) ^ 2 * hkey

/-- Second component of the rotated perifocal y-axis. -/
theorem Qvec_comp2 (r v : Vec3) (k : ℝ) (hH : 0 < norm3 (hVec r v))
    (hN : 0 < norm3 (nodeVec r v)) (he : 0 < norm3 (eccVec r v k)) :
    -((nodeVec r v).2.1 / norm3 (nodeVec r v) *
        ((eccVec r v k).2.2 * norm3 (hVec r v) /
          (norm3 (nodeVec r v) * norm3 (eccVec r v k)))) +
      (nodeVec r v).1 / norm3 (nodeVec r v) *
        (dot3 (nodeVec r v) (eccVec r v k) /
          (norm3 (nodeVec r v) * norm3 (eccVec r v k))) *
        ((hVec r v).2.2 / norm3 (hVec r v)) =
      (cross3 (hVec r v) (eccVec r v k)).2.1 /
        (norm3 (hVec r v) * norm3 (eccVec r v k)) := by
  have hEh := ecc_dot_h_comps r v k
  have hN2 := node_sq_comps r v
  have hH2 : norm3 (hVec r v) ^ 2 =
      (hVec r v).1 ^ 2 + (hVec r v).2.1 ^ 2 + (hVec r v).2.2 ^ 2 :=
    sq_norm3 _
  have hkey : -((hVec r v).1 * (eccVec r v k).2.2 * norm3 (hVec r v) ^ 2) -
        (hVec r v).2.1 * (hVec r v).2.2 *
          (-((hVec r v).2.1) * (eccVec r v k).1 +
            (hVec r v).1 * (eccVec r v k).2.1) =
      norm3 (nodeVec r v) ^ 2 *
        ((hVec r v).2.2 * (eccVec r v k).1 -
          (hVec r v).1 * (eccVec r v k).2.2) := by
    linear_combination (-(hVec r v).1) * (hVec r v).2.2 * hEh
      + ((hVec r v).1 * (eccVec r v k).2.2
        - (hVec r v).2.2 * (eccVec r v k).1) * hN2
      + (-(hVec r v).1) * (eccVec r v k).2.2 * hH2
  have hm2 : (cross3 (hVec r v) (eccVec r v k)).2.1 =
      (hVec r v).2.2 * (eccVec r v k).1 -
        (hVec r v).1 * (eccVec r v k).2.2 := rfl
  rw [node_dot_ecc, hm2,
    show (nodeVec r v).1 = -((hVec r v).2.1) from rfl,
    show (nodeVec r v).2.1 = (hVec r v).1 from rfl]
  field_simp
  linear_combination norm3 (hVec r v) * norm3 (nodeVec r v) ^ 2
    * norm3 (eccVec r v k) ^ 2 * hkey

/-- Third component of the rotated perifocal y-axis. -/
theorem Qvec_comp3 (r v : Vec3) (k : ℝ) (hH : 0 < norm3 (hVec r v))
    (hN : 0 < norm3 (nodeVec r v)) (he : 0 < norm3 (eccVec r v k)) :
    dot3 (nodeVec r v) (eccVec r v k) /
        (norm3 (nodeVec r v) * norm3 (eccVec r v k)) *
        (norm3 (nodeVec r v) / norm3 (hVec r v)) =
      (cross3 (hVec r v) (eccVec r v k)).2.2 /
        (norm3 (hVec r v) * norm3 (eccVec r v k)) := by
  have hm3 : (cross3 (hVec r v) (eccVec r v k)).2.2 =
      (hVec r v).1 * (eccVec r v k).2.1 -
        (hVec r v).2.1 * (eccVec r v k).1 := rfl
  rw [node_dot_ecc, hm3]
  field_simp
  ring

set_option maxHeartbeats 1000000 in
/-- C4: for every valid Cartesian state (r, v) and gravitational parameter
k > 0 describing a non-degenerate orbit — nonzero radius, nonzero angular
momentum (a well-defined orbital plane), non-equatorial (nonzero node
vector, i.e. inclination not 0 or π), non-circular (nonzero eccentricity
vector), non-parabolic (eccentricity ≠ 1, so the semi-major axis is
finite) — the spec-modelled conversions satisfy
`classical_to_rv (rv_to_classical r v k) k = (r, v)` exactly over ℝ; exact
equality implies reproduction within any relative tolerance, in particular
1e-8. -/
theorem rv_classical_round_trip (r v : Vec3) (k : ℝ) (hk : 0 < k)
    (hr0 : r ≠ vzero) (hh : hVec r v ≠ vzero) (hn : nodeVec r v ≠ vzero)
    (he0 : eccVec r v k ≠ vzero) (he1 : norm3 (eccVec r v k) ≠ 1) :
    classical_to_rv (rv_to_classical r v k) k = (r, v) := by
  have hR := norm3_pos r hr0
  have hH := norm3_pos (hVec r v) hh
  have hN := norm3_pos (nodeVec r v) hn
  have he := norm3_pos (eccVec r v k) he0
  obtain ⟨hcosi, hsini⟩ := inc_cos_sin r v k hH
  obtain ⟨hcosO, hsinO⟩ := raan_cos_sin r v k hN
  obtain ⟨hcosw, hsinw⟩ := argp_cos_sin r v k hH hN he
  obtain ⟨hcosnu, hsinnu⟩ := nu_cos_sin r v k hk hR hH he
  have hrmag := rmag_recon r v k hk hR hH he he1
  have hsqrt := sqrt_k_over_p r v k hk hH he1
  have heccp : (rv_to_classical r v k).ecc = norm3 (eccVec r v k) := rfl
  have hkr := key_r r v k hk.ne' hR.ne' hH.ne'
  have hkv := key_v r v k hk.ne' hR.ne'
  have hkr1 := congrArg Prod.fst hkr
  have hkr2 := congrArg (fun t : Vec3 => t.2.1) hkr
  have hkr3 := congrArg (fun t : Vec3 => t.2.2) hkr
  have hkv1 := congrArg Prod.fst hkv
  have hkv2 := congrArg (fun t : Vec3 => t.2.1) hkv
  have hkv3 := congrArg (fun t : Vec3 => t.2.2) hkv
  simp only [vsmul, vadd] at hkr1 hkr2 hkr3 hkv1 hkv2 hkv3
  simp only [classical_to_rv]
  rw [hrmag, hsqrt, hcosi, hsini, hcosO, hsinO, hcosw, hsinw, hcosnu,
    hsinnu, heccp]
  rw [Pvec_comp1 r v k hH hN he, Pvec_comp2 r v k hH hN he,
    Pvec_comp3 r v k hH hN he, Qvec_comp1 r v k hH hN he,
    Qvec_comp2 r v k hH hN he, Qvec_comp3 r v k hH hN he]
  simp only [vsmul, vadd, Prod.ext_iff]
  refine ⟨⟨?_, ?_, ?_⟩, ?_, ?_, ?_⟩
  · field_simp
    linear_combination (-(norm3 r ^ 2 * norm3 (eccVec r v k) ^ 2
      * norm3 (hVec r v))) * hkr1
  · field_simp
    linear_combination (-(norm3 r ^ 2 * norm3 (eccVec r v k) ^ 2
      * norm3 (hVec r v))) * hkr2
  · field_simp
    linear_combination (-(norm3 r ^ 2 * norm3 (eccVec r v k) ^ 2
      * norm3 (hVec r v))) * hkr3
  · field_simp
    linear_combination (-(k * norm3 (hVec r v) * norm3 (eccVec r v k) ^ 2
      * norm3 r)) * hkv1
  · field_simp
    linear_combination (-(k * norm3 (hVec r v) * norm3 (eccVec r v k) ^ 2
      * norm3 r)) * hkv2
  · field_simp
    linear_combination (-(k * norm3 (hVec r v) * norm3 (eccVec r v k) ^ 2
      * norm3 r)) * hkv3

/-- C4 witness: the round trip at the concrete non-degenerate state
r = (1, 0, 0), v = (0, 0, 2), k = 1 (angular momentum (0, −2, 0),
inclination 90°, eccentricity vector (3, 0, 0)). -/
theorem rv_classical_round_trip_witness :
    classical_to_rv
        (rv_to_classical ((1 : ℝ), (0 : ℝ), (0 : ℝ))
          ((0 : ℝ), (0 : ℝ), (2 : ℝ)) 1) 1 =
      (((1 : ℝ), (0 : ℝ), (0 : ℝ)), ((0 : ℝ), (0 : ℝ), (2 : ℝ))) := by
  have hecc : eccVec ((1 : ℝ), (0 : ℝ), (0 : ℝ)) ((0 : ℝ), (0 : ℝ), (2 : ℝ))
      1 = ((3 : ℝ), (0 : ℝ), (0 : ℝ)) := by
    norm_num [eccVec, dot3, vadd, vsmul, norm3, Real.sqrt_one, Prod.ext_iff]
  have hecc3 : norm3 ((3 : ℝ), (0 : ℝ), (0 : ℝ)) = 3 := by
    show Real.sqrt ((3 : ℝ) ^ 2 + (0 : ℝ) ^ 2 + (0 : ℝ) ^ 2) = 3
    rw [show (3 : ℝ) ^ 2 + (0 : ℝ) ^ 2 + (0 : ℝ) ^ 2 = 3 ^ 2 from by norm_num]
    exact Real.sqrt_sq (by norm_num)
  exact rv_classical_round_trip ((1 : ℝ), (0 : ℝ), (0 : ℝ))
    ((0 : ℝ), (0 : ℝ), (2 : ℝ)) 1 (by norm_num)
    (by norm_num [vzero, Prod.ext_iff])
    (by norm_num [hVec, cross3, vzero, Prod.ext_iff])
    (by norm_num [nodeVec, hVec, cross3, vzero, Prod.ext_iff])
    (by rw [hecc]; norm_num [vzero, Prod.ext_iff])
    (by rw [hecc, hecc3]; norm_num)

/-- C7: a `Body` constructed without an explicit mass stores `k / G`, so
`mass × G = k` holds exactly; a `Body` constructed with an explicit mass
stores that value unchanged.  `Body` is a `namedtuple` with empty
`__slots__`, so the record is immutable and the invariant holds for the
value's whole lifetime. -/
theorem body_mass_k_consistent (parent : Option String) (k : ℚ) (name : String)
    (symbol : Option String) (R R_polar R_mean rotational_period J2v J3v : ℚ) :
    (bodyNew parent k name symbol R R_polar R_mean rotational_period J2v J3v
        none).mass * G = k ∧
    ∀ m : ℚ, (bodyNew parent k name symbol R R_polar R_mean rotational_period
        J2v J3v (some m)).mass = m := by
  refine ⟨?_, fun m => rfl⟩
  show k / G * G = k
  exact div_mul_cancel₀ k G_ne_zero

/-- C8: `Body.from_relative` with both scale factors supplied returns a body
whose gravitational parameter is `kf × reference.k` and whose equatorial
radius is `Rf × reference.R`. -/
theorem from_relative_scales (reference : Body) (parent : Option String)
    (kf : ℚ) (name : String) (symbol : Option String) (Rf : ℚ) :
    ∃ b : Body,
      from_relative reference parent (some kf) name symbol (some Rf) =
        Except.ok b ∧
      b.k = kf * reference.k ∧ b.R = Rf * reference.R :=
  ⟨bodyNew parent (kf * reference.k) name symbol (Rf * reference.R) 0 0 0 0 0 none,
    rfl, rfl, rfl⟩

/-- C9: `Body.from_relative` requires both scale factors — if either is left
as `None`, the multiplication with the reference's parameter raises
`TypeError` before any body is constructed; no defaulting to the reference's
own `k` or `R` occurs. -/
theorem from_relative_requires_both (reference : Body) (parent : Option String)
    (kf : Option ℚ) (name : String) (symbol : Option String) (Rf : Option ℚ)
    (h : kf = none ∨ Rf = none) :
    from_relative reference parent kf name symbol Rf =
      Except.error PyError.typeError := by
  rcases h with hk | hR
  · subst hk; rfl
  · subst hR; cases kf <;> rfl

/-- C9 witness: omitting the `k` factor on a concrete reference body yields
`TypeError`. -/
theorem from_relative_requires_both_witness :
    from_relative (bodyNew none 1 "Ref" none 1 0 0 0 0 0 none) none none
        "Scaled" none (some 2) = Except.error PyError.typeError :=
  from_relative_requires_both (bodyNew none 1 "Ref" none 1 0 0 0 0 0 none)
    none none "Scaled" none (some 2) (Or.inl rfl)

/-- C2 counterexample: a body whose rotational period is zero — the claim
says requesting `angular_velocity` fails with a `DivideByZero`-class error,
but the numpy quantity division returns `+inf` (with a `RuntimeWarning`),
so a value is returned and no error is raised. -/
theorem angular_velocity_zero_period_counterexample :
    angular_velocity (bodyNew none 1 "Z" none 0 0 0 0 0 0 none) =
        AngVelResult.val NpVal.posInf ∧
      AngVelResult.val NpVal.posInf ≠ AngVelResult.divideByZeroError := by
  refine ⟨?_, by simp⟩
  simp [angular_velocity, bodyNew, npDiv]

/-- C2 (amended): `angular_velocity` returns `2π rad` divided by the
rotational period converted to seconds (finite coefficient `2 / T_s` of π)
whenever the period is nonzero; for a zero rotational period the division
returns the value `+inf` rather than raising a `DivideByZero`-class error. -/
theorem angular_velocity_spec (b : Body) (h : b.rotational_period ≠ 0) :
    angular_velocity b =
        AngVelResult.val (NpVal.fin (2 / (b.rotational_period * 86400))) ∧
      ∀ b0 : Body, b0.rotational_period = 0 →
        angular_velocity b0 = AngVelResult.val NpVal.posInf := by
  constructor
  · have h86400 : b.rotational_period * 86400 ≠ 0 := by
      exact mul_ne_zero h (by norm_num)
    simp [angular_velocity, npDiv, h86400]
  · intro b0 h0
    simp [angular_velocity, npDiv, h0]

/-- C2 witness: a concrete body with a one-day rotational period. -/
theorem angular_velocity_spec_witness :
    angular_velocity (bodyNew none 1 "D" none 0 0 0 1 0 0 none) =
        AngVelResult.val
          (NpVal.fin
            (2 / ((bodyNew none 1 "D" none 0 0 0 1 0 0 none).rotational_period *
              86400))) ∧
      ∀ b0 : Body, b0.rotational_period = 0 →
        angular_velocity b0 = AngVelResult.val NpVal.posInf :=
  angular_velocity_spec (bodyNew none 1 "D" none 0 0 0 1 0 0 none)
    (by norm_num [bodyNew])

/-- C3 counterexample: an orbit whose epoch (0) precedes the extractor's
start epoch (1) is accepted — it is propagated forward to the start epoch —
rather than raising an error as the claim states. -/
theorem add_orbit_early_epoch_counterexample :
    add_orbit_epoch 1 2 0 = Except.ok 1 := by
  simp [add_orbit_epoch]

/-- C3 (amended): `add_orbit` raises `ValueError` only when the orbit's
epoch exceeds the extractor's end epoch (and does not precede the start
epoch); an epoch preceding the start epoch is accepted after the orbit is
propagated forward to the start epoch; an epoch within
`[start_epoch, end_epoch]` is accepted unchanged. -/
theorem add_orbit_epoch_policy (s e ep : ℚ) :
    (s ≤ ep → e < ep →
        add_orbit_epoch s e ep = Except.error PyError.valueError) ∧
    (ep < s → add_orbit_epoch s e ep = Except.ok s) ∧
    (s ≤ ep → ep ≤ e → add_orbit_epoch s e ep = Except.ok ep) := by
  refine ⟨fun hs he => ?_, fun hlt => ?_, fun hs he => ?_⟩
  · simp [add_orbit_epoch, not_lt.2 hs, he]
  · simp [add_orbit_epoch, hlt]
  · simp [add_orbit_epoch, not_lt.2 hs, not_lt.2 he]

/-- C3 witness: the three epoch regimes at concrete epochs. -/
theorem add_orbit_epoch_policy_witness :
    add_orbit_epoch 0 10 11 = Except.error PyError.valueError ∧
    add_orbit_epoch 5 10 1 = Except.ok 5 ∧
    add_orbit_epoch 0 10 7 = Except.ok 7 :=
  ⟨(add_orbit_epoch_policy 0 10 11).1 (by norm_num) (by norm_num),
   (add_orbit_epoch_policy 5 10 1).2.1 (by norm_num),
   (add_orbit_epoch_policy 0 10 7).2.2 (by norm_num) (by norm_num)⟩

/-- C1 counterexample: with sample count N = 2 and a propagation interval of
1 second the sample times are `[0, 1/2, 1, 3/2]` — there are N + 2 = 4
samples at uniform step h = 1/2, but the last sample time 3/2 lies outside
the propagation interval `[0, 1]`, refuting the claim that every sample time
lies inside it. -/
theorem orbit_samples_overshoot_counterexample :
    ((orbit_cartesian_samples (fun _ => (0, 0, 0)) 2 1).map Prod.fst) =
        [0, 1/2, 1, 3/2] ∧
      ¬ ((3 : ℚ)/2 ≤ 1) := by
  constructor
  · simp [orbit_cartesian_samples, List.range_succ]
    norm_num
  · norm_num

/-- C1 (amended): for every orbit added with sample count N ≥ 1 the sampling
interface produces exactly N + 2 `(t, x, y, z)` samples at the uniform time
step h = (end_epoch − orbit_epoch)/N, with positions converted to meters
(factor 1000 from km); the sample times are k·h for k = 0, …, N+1, so the
first N + 1 samples lie inside the propagation interval while the final
sample overshoots the end epoch by exactly one step h. -/
theorem orbit_samples_spec (prop : ℚ → ℚ × ℚ × ℚ) (N : ℕ) (span : ℚ)
    (hN : 0 < N) (hspan : 0 ≤ span) :
    (orbit_cartesian_samples prop N span).length = N + 2 ∧
    (∀ k : ℕ, k < N + 2 →
        (orbit_cartesian_samples prop N span)[k]? =
          some ((k : ℚ) * (span / N), 1000 * (prop ((k : ℚ) * (span / N))).1,
            1000 * (prop ((k : ℚ) * (span / N))).2.1,
            1000 * (prop ((k : ℚ) * (span / N))).2.2)) ∧
    (∀ k : ℕ, k ≤ N → (k : ℚ) * (span / N) ≤ span) ∧
    ((N : ℚ) + 1) * (span / N) = span + span / N ∧
    (0 < span → span < ((N : ℚ) + 1) * (span / N)) := by
  have hNQ : (N : ℚ) ≠ 0 := Nat.cast_ne_zero.2 hN.ne'
  have hmul : (N : ℚ) * (span / N) = span := mul_div_cancel₀ span hNQ
  have heq : ((N : ℚ) + 1) * (span / N) = span + span / N := by
    calc ((N : ℚ) + 1) * (span / N) = (N : ℚ) * (span / N) + span / N := by ring
    _ = span + span / N := by rw [hmul]
  refine ⟨?_, ?_, ?_, heq, ?_⟩
  · simp only [orbit_cartesian_samples, List.length_map, List.length_range]
  · intro k hk
    have hr : (List.range (N + 2))[k]? = some k := List.getElem?_range hk
    simp only [orbit_cartesian_samples, List.getElem?_map, hr]
    rfl
  · intro k hk
    have h1 : ((k : ℚ)) * (span / N) ≤ (N : ℚ) * (span / N) := by
      have hk1 : ((k : ℚ)) ≤ (N : ℚ) := Nat.cast_le.2 hk
      have h2 : (0 : ℚ) ≤ span / N := by positivity
      exact mul_le_mul_of_nonneg_right hk1 h2
    calc ((k : ℚ)) * (span / N) ≤ (N : ℚ) * (span / N) := h1
    _ = span := hmul
  · intro hpos
    have hstep : 0 < span / N := by positivity
    rw [heq]
    linarith

/-- C1 witness: the amended statement at N = 2, span = 1 s, with a concrete
propagated position. -/
theorem orbit_samples_spec_witness :
    (orbit_cartesian_samples (fun t => (t, 2, 3)) 2 1).length = 2 + 2 ∧
    (∀ k : ℕ, k < 2 + 2 →
        (orbit_cartesian_samples (fun t => (t, 2, 3)) 2 1)[k]? =
          some ((k : ℚ) * (1 / 2),
            1000 * ((fun (t : ℚ) => (t, (2 : ℚ), (3 : ℚ))) ((k : ℚ) * (1 / 2))).1,
            1000 * ((fun (t : ℚ) => (t, (2 : ℚ), (3 : ℚ))) ((k : ℚ) * (1 / 2))).2.1,
            1000 * ((fun (t : ℚ) => (t, (2 : ℚ), (3 : ℚ))) ((k : ℚ) * (1 / 2))).2.2)) ∧
    (∀ k : ℕ, k ≤ 2 → (k : ℚ) * (1 / 2) ≤ 1) ∧
    ((2 : ℚ) + 1) * (1 / 2) = 1 + 1 / 2 ∧
    (0 < (1 : ℚ) → (1 : ℚ) < ((2 : ℚ) + 1) * (1 / 2)) := by
  have h := orbit_samples_spec (fun t => (t, 2, 3)) 2 1 (by norm_num) (by norm_num)
  simpa using h

/-- C10: `add_ground_station` validates only the length of `pos` and the
type of its first element.  A `pos` that is not a length-2 sequence, or
whose first element is not a `Quantity`, raises `TypeError` with the
extractor untouched (the guard runs before any packet is written or `gs_n`
incremented, so the error result carries no modified state); a length-2
`pos` whose first element is a `Quantity` passes validation whatever its
second element is, appends one packet, and increments `gs_n`. -/
theorem add_ground_station_validation (e2c : PyVal → PyVal → List ℚ)
    (st : ExtractorState) (pos : List PyVal) :
    (pos.length ≠ 2 →
        add_ground_station e2c st pos = Except.error PyError.typeError) ∧
    (∀ p0 p1 : PyVal, pos = [p0, p1] → isQuantity p0 = false →
        add_ground_station e2c st pos = Except.error PyError.typeError) ∧
    (∀ p0 p1 : PyVal, pos = [p0, p1] → isQuantity p0 = true →
        add_ground_station e2c st pos =
          Except.ok
            { gs_packets :=
                st.gs_packets ++ [("GS" ++ toString st.gs_n, e2c p0 p1)]
              gs_n := st.gs_n + 1 }) := by
  refine ⟨fun hlen => ?_, fun p0 p1 hpos hq => ?_, fun p0 p1 hpos hq => ?_⟩
  · match pos, hlen with
    | [], _ => rfl
    | [_], _ => rfl
    | _ :: _ :: _ :: _, _ => rfl
    | [_, _], hlen => exact absurd rfl hlen
  · subst hpos
    simp [add_ground_station, hq]
  · subst hpos
    simp [add_ground_station, hq]

/-- C10 witness: a second element that is not a `Quantity` passes
validation; a short `pos` and a non-`Quantity` first element raise
`TypeError`. -/
theorem add_ground_station_validation_witness :
    add_ground_station (fun _ _ => []) ⟨[], 0⟩
        [PyVal.quantity 1, PyVal.str "not a quantity"] =
      Except.ok
        { gs_packets :=
            ([] : List (String × List ℚ)) ++ [("GS" ++ toString (0 : ℕ), [])]
          gs_n := 0 + 1 } ∧
    add_ground_station (fun _ _ => []) ⟨[], 0⟩ [PyVal.quantity 1] =
      Except.error PyError.typeError ∧
    add_ground_station (fun _ _ => []) ⟨[], 0⟩
        [PyVal.str "u", PyVal.quantity 2] =
      Except.error PyError.typeError :=
  ⟨(add_ground_station_validation (fun _ _ => []) ⟨[], 0⟩
      [PyVal.quantity 1, PyVal.str "not a quantity"]).2.2
      (PyVal.quantity 1) (PyVal.str "not a quantity") rfl rfl,
   (add_ground_station_validation (fun _ _ => []) ⟨[], 0⟩
      [PyVal.quantity 1]).1 (by simp),
   (add_ground_station_validation (fun _ _ => []) ⟨[], 0⟩
      [PyVal.str "u", PyVal.quantity 2]).2.1
      (PyVal.str "u") (PyVal.quantity 2) rfl rfl⟩

/-- C5: routed through the perturbed numerical path, a perturbation whose
acceleration is identically zero yields a vector field equal to the
unperturbed two-body field, so every explicit Runge–Kutta propagation (any
tableau, step size, and step count) returns exactly the unperturbed result;
and the modelled closed-form two-body path is the identity on the
observable elements after one full orbital period.  Together these give the
claim: the zero perturbation acts as an identity, and after one period the
state returns to the initial state to within integrator tolerance. -/
theorem cowell_zero_perturbation_identity (tab : ButcherTableau) (k h t0 : ℝ)
    (n : ℕ) (y : State6) (ad : ℝ → State6 → Vec3)
    (had : ∀ t s, ad t s = vzero) (T : ℚ) (hT : T ≠ 0) (els : ClassicalEls) :
    rkPropagate tab (pertField k ad) h n t0 y =
        rkPropagate tab (twoBodyField k) h n t0 y ∧
      observeEls (keplerPropagate T T els) = observeEls els := by
  constructor
  · have hfield : pertField k ad = twoBodyField k := by
      funext t s
      simp [pertField, twoBodyField, had, vadd, vzero]
    rw [hfield]
  · have hTT : T / T = 1 := div_self hT
    have hfract : Int.fract (els.M + 1) = Int.fract els.M := by
      have h1 := Int.fract_add_int els.M 1
      simp only [Int.cast_one] at h1
      exact h1
    simp [observeEls, keplerPropagate, hTT, hfract]

/-- C5 witness: a concrete tableau, step, state, the zero acceleration
function, and a concrete one-period element propagation. -/
theorem cowell_zero_perturbation_identity_witness :
    rkPropagate ⟨[0], [[]], [1]⟩ (pertField 1 (fun _ _ => vzero)) 1 1 0
        ((1, 0, 0), (0, 1, 0)) =
        rkPropagate ⟨[0], [[]], [1]⟩ (twoBodyField 1) 1 1 0
          ((1, 0, 0), (0, 1, 0)) ∧
      observeEls (keplerPropagate 1 1 ⟨1, 0, 0, 0, 0, 0⟩) =
        observeEls ⟨1, 0, 0, 0, 0, 0⟩ :=
  cowell_zero_perturbation_identity ⟨[0], [[]], [1]⟩ 1 1 0 1
    ((1, 0, 0), (0, 1, 0)) (fun _ _ => vzero) (fun _ _ => rfl) 1 (by norm_num)
    ⟨1, 0, 0, 0, 0, 0⟩

end Poliastro
